import Mathlib

/-!
Verification of the n8n editor-ui slice consisting of
`packages/frontend/editor-ui/src/utils/nodeTypesUtils.ts` and the
project-badge Vue component (`src/unnamed/part_000`).

The TypeScript is shallowly embedded: JS objects become structures, optional
values become `Option`, JS numbers occurring here are only compared for
equality and are modelled as `Int`, and JS string values inside
`displayOptions.show` arrays keep their dynamic type through the inductive
`NodeParameterValue`.  JS object literals iterate their keys in insertion
order, so `displayOptions.show` is an association list in insertion order.
-/

set_option linter.unusedVariables false

/-- JS `NodeParameterValue`: `string | number | boolean | undefined | null`.
Numbers in the embedded code are only ever compared for equality, so `Int`
models them faithfully. -/
inductive NodeParameterValue where
  | str (s : String)
  | num (n : Int)
  | bool (b : Bool)
  | null
  | undef
deriving DecidableEq, Repr

/-- JS template-string / `.toString()` rendering of a parameter value. -/
def jsToString : NodeParameterValue → String
  | .str s => s
  | .num n => toString n
  | .bool b => if b then "true" else "false"
  | .null => "null"
  | .undef => "undefined"

/-- JS truthiness of a parameter value (`''`, `0`, `false`, `null`,
`undefined` are falsy). -/
def jsTruthy : NodeParameterValue → Bool
  | .str s => decide (s ≠ "")
  | .num n => decide (n ≠ 0)
  | .bool b => b
  | .null => false
  | .undef => false

/-- `IDisplayOptions` restricted to the parts this file reads: the `show`
record, a JS object mapping field names to optional arrays of parameter
values (an entry with value `none` models a key that is present with value
`undefined`). -/
structure DisplayOptions where
  showMap : Option (List (String × Option (List NodeParameterValue)))
deriving DecidableEq, Repr

/-- An entry of a property's `options` array.  `value := none` models an
option object without a `value` key (`'value' in option` is then false). -/
structure NodePropertyOption where
  name : String
  value : Option NodeParameterValue
deriving DecidableEq, Repr

/-- `INodeProperties` restricted to the fields read by the embedded code. -/
structure INodeProperties where
  name : String
  displayOptions : Option DisplayOptions
  options : Option (List NodePropertyOption)
deriving DecidableEq, Repr

/-- `INodeCredentialDescription` restricted to the fields read here. -/
structure INodeCredentialDescription where
  name : String
  displayOptions : Option DisplayOptions
deriving DecidableEq, Repr

/-- `INodeTypeDescription` restricted to the fields read here. -/
structure INodeTypeDescription where
  properties : List INodeProperties
  credentials : Option (List INodeCredentialDescription)
deriving DecidableEq, Repr

/-- `x.displayOptions?.show` for a credential description. -/
def INodeCredentialDescription.showOf (cred : INodeCredentialDescription) :
    Option (List (String × Option (List NodeParameterValue))) :=
  cred.displayOptions.bind DisplayOptions.showMap

/-- `x.displayOptions?.show` for a node property. -/
def INodeProperties.showOf (prop : INodeProperties) :
    Option (List (String × Option (List NodeParameterValue))) :=
  prop.displayOptions.bind DisplayOptions.showMap

/-- `show[key]`: association-list lookup, `none` when the key is absent. -/
def showGet (sh : List (String × Option (List NodeParameterValue)))
    (key : String) : Option (Option (List NodeParameterValue)) :=
  (sh.find? (fun e => decide (e.1 = key))).map Prod.snd

/-- `Object.keys(show)` in insertion order. -/
def showKeys (sh : List (String × Option (List NodeParameterValue))) :
    List String :=
  sh.map Prod.fst

/- ------------------------------------------------------------------
   Badge component (src/unnamed/part_000)
   ------------------------------------------------------------------ -/

/-- `ProjectSharingData`: only list length is observed by the component. -/
structure ProjectSharingData where
  id : String
deriving DecidableEq, Repr

/-- A `Project`: the badge reads its `id` and `type` (a string,
`'team'` for team projects as in `ProjectTypes.Team`). -/
structure Project where
  id : String
  type : String
deriving DecidableEq, Repr

/-- The resource prop of the badge component.  `hasSharedKey` models the JS
`'sharedWithProjects' in props.resource` key-presence test;
`sharedWithProjects := none` models an absent or `undefined` value. -/
structure BadgeResource where
  homeProject : Option Project
  hasSharedKey : Bool
  sharedWithProjects : Option (List ProjectSharingData)
deriving DecidableEq, Repr

/-- The `ProjectState` const enum of the badge component. -/
inductive ProjectState where
  | sharedPersonal
  | sharedOwned
  | owned
  | personal
  | team
  | sharedTeam
  | unknown
deriving DecidableEq, Repr

/-- The `isShared` computed:
`'sharedWithProjects' in props.resource && props.resource.sharedWithProjects?.length`,
as a boolean (the JS value is truthy exactly when the key is present and the
list is non-empty). -/
def isShared (r : BadgeResource) : Bool :=
  r.hasSharedKey &&
    (match r.sharedWithProjects with
     | some l => decide (l.length ≠ 0)
     | none => false)

/-- `props.resource.homeProject?.type === ProjectTypes.Team` (false when
`homeProject` is absent, because `undefined !== 'team'`). -/
def homeTypeIsTeam (r : BadgeResource) : Bool :=
  match r.homeProject with
  | some hp => decide (hp.type = "team")
  | none => false

/-- First branch guard of `projectState`: the home project equals the
personal project, or there is no home project. -/
def ownedCond (r : BadgeResource) (personalProject : Option Project) : Bool :=
  (match r.homeProject, personalProject with
   | some hp, some pp => decide (hp.id = pp.id)
   | _, _ => false) || r.homeProject.isNone

/-- The `projectState` computed of the badge component. -/
def projectState (r : BadgeResource) (personalProject : Option Project) :
    ProjectState :=
  if ownedCond r personalProject then
    if isShared r then .sharedOwned else .owned
  else if homeTypeIsTeam r = false then
    if isShared r then .sharedPersonal else .personal
  else if homeTypeIsTeam r = true then
    if isShared r then .sharedTeam else .team
  else .unknown

/-- Specification-side ownership kind: which of the three branch families of
`projectState` applies, ignoring sharing. -/
inductive OwnershipKind where
  | ownedK
  | personalK
  | teamK
deriving DecidableEq, Repr

/-- Specification-side classification used to state C5. -/
def baseState (r : BadgeResource) (personalProject : Option Project) :
    OwnershipKind :=
  if ownedCond r personalProject then .ownedK
  else if homeTypeIsTeam r = false then .personalK
  else .teamK

/-- Specification-side pairing of an ownership kind with its shared /
non-shared `ProjectState` variant. -/
def applyShared : Bool → OwnershipKind → ProjectState
  | true, .ownedK => .sharedOwned
  | false, .ownedK => .owned
  | true, .personalK => .sharedPersonal
  | false, .personalK => .personal
  | true, .teamK => .sharedTeam
  | false, .teamK => .team

/- ------------------------------------------------------------------
   nodeTypesUtils.ts: getNodeAuthFields and isNodeFieldMatchingNodeVersion
   ------------------------------------------------------------------ -/

/-- `isNodeFieldMatchingNodeVersion` (nodeTypesUtils.ts:346-354).
`nodeVersion` is falsy when absent or `0`; a missing or undefined
`show['@version']` makes the guard falsy so the function returns `true`. -/
def isNodeFieldMatchingNodeVersion (nodeField : INodeProperties)
    (nodeVersion : Option Int) : Bool :=
  match nodeVersion with
  | some v =>
    if v ≠ 0 then
      match nodeField.showOf with
      | some sh =>
        match showGet sh "@version" with
        | some (some vers) => decide (NodeParameterValue.num v ∈ vers)
        | _ => true
      | none => true
    else true
  | none => true

/-- Inner body of the `getNodeAuthFields` loops: push `nodeField` unless it
is already present or fails the version check
(`!authFields.includes(nodeField) && isNodeFieldMatchingNodeVersion(...)`). -/
def authFieldsAddField (nodeVersion : Option Int)
    (authFields : List INodeProperties) (nodeField : INodeProperties) :
    List INodeProperties :=
  if nodeField ∉ authFields ∧
      isNodeFieldMatchingNodeVersion nodeField nodeVersion = true then
    authFields ++ [nodeField]
  else authFields

/-- One `Object.keys(cred.displayOptions.show).forEach` iteration of
`getNodeAuthFields`: the filtered `nodeFieldsForName` array is always truthy
in JS, so the `if (nodeFieldsForName)` guard of the source never fails. -/
def authFieldsForOption (nt : INodeTypeDescription) (nodeVersion : Option Int)
    (authFields : List INodeProperties) (option : String) :
    List INodeProperties :=
  let nodeFieldsForName := nt.properties.filter (fun prop => decide (prop.name = option))
  nodeFieldsForName.foldl (authFieldsAddField nodeVersion) authFields

/-- One `nodeType.credentials.forEach` iteration of `getNodeAuthFields`. -/
def authFieldsForCred (nt : INodeTypeDescription) (nodeVersion : Option Int)
    (authFields : List INodeProperties) (cred : INodeCredentialDescription) :
    List INodeProperties :=
  match cred.showOf with
  | some sh => (showKeys sh).foldl (authFieldsForOption nt nodeVersion) authFields
  | none => authFields

/-- `getNodeAuthFields` (nodeTypesUtils.ts:319-344). -/
def getNodeAuthFields (nodeType : Option INodeTypeDescription)
    (nodeVersion : Option Int) : List INodeProperties :=
  match nodeType with
  | none => []
  | some nt =>
    match nt.credentials with
    | some creds =>
      if creds.length > 0 then creds.foldl (authFieldsForCred nt nodeVersion) []
      else []
    | none => []

/- ------------------------------------------------------------------
   nodeTypesUtils.ts: isNodeParameterRequired
   ------------------------------------------------------------------ -/

/-- The callback of `nodeType.properties.find` inside
`isNodeParameterRequired` (nodeTypesUtils.ts:401-403).  Its body is a block
`{ prop.name === name; }` with no `return`, so the arrow function evaluates
the comparison, discards it, and yields `undefined`, which is falsy: the
predicate rejects every property. -/
def relatedFieldPred (name : String) (prop : INodeProperties) : Bool :=
  let discarded := decide (prop.name = name)
  false

/-- `isNodeParameterRequired` (nodeTypesUtils.ts:391-411).  The `forEach`
walk is kept as a discarded list (JS `forEach` ignores its callback's return
values); the recursive call of the source sits in the `some` branch of the
inner `find`, which is impossible because `relatedFieldPred` is constantly
false, so that branch is eliminated by `absurd` instead of recursing. -/
def isNodeParameterRequired (nodeType : INodeTypeDescription)
    (parameter : INodeProperties) : Bool :=
  match parameter.showOf with
  | none => true
  | some sh =>
    let walk := (showKeys sh).map (fun name =>
      match h : nodeType.properties.find? (relatedFieldPred name) with
      | some p => absurd (List.find?_some h) (by simp [relatedFieldPred])
      | none => true)
    true

/- ------------------------------------------------------------------
   nodeTypesUtils.ts: findAlternativeAuthField and getMainAuthField
   ------------------------------------------------------------------ -/

/-- `dict[fieldName] = (dict[fieldName] || []).concat(vals)` on a JS object
modelled as an association list: overwrite in place when the key exists,
append a fresh entry otherwise. -/
def dictUpsert (d : List (String × List String)) (k : String)
    (vs : List String) : List (String × List String) :=
  let cur := ((d.find? (fun e => decide (e.1 = k))).map Prod.snd).getD []
  if d.any (fun e => decide (e.1 = k)) then
    d.map (fun e => if e.1 = k then (k, cur ++ vs) else e)
  else d ++ [(k, cur ++ vs)]

/-- `(cred.displayOptions.show[fieldName] ?? []).map(val => val ? val.toString() : '')`. -/
def dependentValuesForEntry (entry : String × Option (List NodeParameterValue)) :
    List String :=
  (entry.2.getD []).map (fun val => if jsTruthy val then jsToString val else "")

/-- One `nodeType.credentials.forEach` iteration of the
`dependentAuthFieldValues` construction. -/
def dependentValuesForCred (dict : List (String × List String))
    (cred : INodeCredentialDescription) : List (String × List String) :=
  match cred.showOf with
  | some sh =>
    sh.foldl (fun dict entry =>
      dictUpsert dict entry.1 (dependentValuesForEntry entry)) dict
  | none => dict

/-- The `dependentAuthFieldValues` object built by
`findAlternativeAuthField` (nodeTypesUtils.ts:171-180): for every credential
with display options, every `show` entry's values are rendered with
`val ? val.toString() : ''` and concatenated under the entry's key. -/
def buildDependentAuthFieldValues (nodeType : INodeTypeDescription) :
    List (String × List String) :=
  (nodeType.credentials.getD []).foldl dependentValuesForCred []

/-- `findAlternativeAuthField` (nodeTypesUtils.ts:167-195).  The source
indexes `dependentAuthFieldValues[field.name]` directly; the lookup is
defined for every field `getMainAuthField` passes in (see the C4 theorem),
and the embedding reads it with a `[]` default. -/
def findAlternativeAuthField (nodeType : INodeTypeDescription)
    (fields : List INodeProperties) : Option INodeProperties :=
  let dependentAuthFieldValues := buildDependentAuthFieldValues nodeType
  fields.find? (fun field =>
    let vals := ((dependentAuthFieldValues.find?
      (fun e => decide (e.1 = field.name))).map Prod.snd).getD []
    match field.options with
    | some opts =>
      opts.foldl (fun required option =>
        match option.value with
        | some (.str s) => if s ∈ vals then required else false
        | _ => required) true
    | none => true)

/-- `MAIN_AUTH_FIELD_NAME` is imported from `@/constants`, which is not part
of the provided sources.  Modelled from the spec: the comment at
nodeTypesUtils.ts:153 ("If there is a field name `authentication`, use it")
fixes its value. -/
def MAIN_AUTH_FIELD_NAME : String := "authentication"

/-- `getMainAuthField` (nodeTypesUtils.ts:140-160). -/
def getMainAuthField (nodeType : Option INodeTypeDescription) :
    Option INodeProperties :=
  match nodeType with
  | none => none
  | some nt =>
    let credentialDependencies := getNodeAuthFields (some nt) none
    let authenticationField := credentialDependencies.find? (fun prop =>
      decide (prop.name = MAIN_AUTH_FIELD_NAME) &&
        (match prop.options with
         | some opts =>
           (opts.find? (fun option =>
             match option.value with
             | some v => decide (v = .str "none")
             | none => false)).isNone
         | none => true))
    let mainAuthFiled := match authenticationField with
      | some f => some f
      | none => findAlternativeAuthField nt credentialDependencies
    let isFieldRequired := match mainAuthFiled with
      | some f => isNodeParameterRequired nt f
      | none => false
    match mainAuthFiled, isFieldRequired with
    | some f, true => some f
    | _, _ => none

/- ------------------------------------------------------------------
   nodeTypesUtils.ts: credential lookups
   ------------------------------------------------------------------ -/

/-- `getAllNodeCredentialForAuthType` (nodeTypesUtils.ts:257-270). -/
def getAllNodeCredentialForAuthType (nodeType : Option INodeTypeDescription)
    (authType : String) : List INodeCredentialDescription :=
  match nodeType with
  | some nt =>
    (nt.credentials.getD []).filter (fun cred =>
      match cred.showOf with
      | some sh => (showGet sh authType).isSome
      | none => false)
  | none => []

/-- The predicate of the `find` inside `getNodeCredentialForSelectedAuthType`:
`cred.displayOptions?.show?.[authFieldName]?.includes(authType)`, falsy when
any link of the optional chain is absent. -/
def credShowIncludes (cred : INodeCredentialDescription)
    (authFieldName : String) (authType : String) : Bool :=
  match cred.showOf with
  | some sh =>
    match showGet sh authFieldName with
    | some (some vals) => decide (NodeParameterValue.str authType ∈ vals)
    | _ => false
  | none => false

/-- `getNodeCredentialForSelectedAuthType` (nodeTypesUtils.ts:272-283). -/
def getNodeCredentialForSelectedAuthType (nt : INodeTypeDescription)
    (authType : String) : Option INodeCredentialDescription :=
  let authField := getMainAuthField (some nt)
  let authFieldName := match authField with
    | some f => f.name
    | none => ""
  (nt.credentials.getD []).find? (fun cred =>
    credShowIncludes cred authFieldName authType)

/-- `getCredentialsRelatedFields` (nodeTypesUtils.ts:356-367). -/
def getCredentialsRelatedFields (nodeType : Option INodeTypeDescription)
    (credentialType : Option INodeCredentialDescription) :
    List INodeProperties :=
  match nodeType, credentialType.bind INodeCredentialDescription.showOf with
  | some nt, some sh =>
    (showKeys sh).foldl (fun fields option =>
      fields ++ nt.properties.filter (fun prop => decide (prop.name = option))) []
  | _, _ => []

/- ------------------------------------------------------------------
   Store models.  The pinia stores live in `@/stores/*.store`, outside the
   provided sources; they are modelled abstractly, just rich enough for the
   calls the embedded code makes.
   ------------------------------------------------------------------ -/

/-- Modelled from the spec: the credentials store
(`@/stores/credentials.store`) is not in the provided sources.  The only
read performed here is
`getCredentialTypeByName(name)?.__overwrittenProperties !== undefined`, so a
credential type is modelled by that one boolean. -/
structure ICredentialTypeInfo where
  overwrittenPropertiesDefined : Bool
deriving DecidableEq, Repr

/-- Modelled from the spec: the credentials store state, a map from
credential-type name to its info. -/
structure CredentialsStore where
  types : List (String × ICredentialTypeInfo)
deriving DecidableEq, Repr

/-- `useCredentialsStore().getCredentialTypeByName(name)`. -/
def getCredentialTypeByName (s : CredentialsStore) (name : String) :
    Option ICredentialTypeInfo :=
  (s.types.find? (fun e => decide (e.1 = name))).map Prod.snd

/-- `NodeAuthenticationOption` as produced by `getNodeAuthOptions`. -/
structure NodeAuthenticationOption where
  name : String
  value : String
  displayOptions : Option DisplayOptions
deriving DecidableEq, Repr

/-- JS `String.prototype.includes` on character lists (true for the empty
needle). -/
def listContainsSub (cs sub : List Char) : Bool :=
  sub.isPrefixOf cs ||
    match cs with
    | [] => false
    | _ :: t => listContainsSub t sub

/-- The in-place "sort so recommended options are first" loop of
`getNodeAuthOptions` (nodeTypesUtils.ts:248-253): a `forEach` over the
original indices where `splice(i, 1)` plus `unshift(item)` moves the element
currently at index `i` to the front; the array length never changes. -/
def recommendedSort (recommendedSuffix : String)
    (options : List NodeAuthenticationOption) : List NodeAuthenticationOption :=
  (List.range options.length).foldl (fun opts i =>
    match opts[i]? with
    | some item =>
      if listContainsSub item.name.toList recommendedSuffix.toList then
        item :: (opts.take i ++ opts.drop (i + 1))
      else opts
    | none => opts) options

/-- `getNodeAuthOptions` (nodeTypesUtils.ts:200-255).  `recommendedSuffix`
stands for `locale.baseText('credentialEdit.credentialConfig.recommendedAuthTypeSuffix')`
and `credStore` for the credentials store read through
`useCredentialsStore()`; both are inputs the function's result depends on. -/
def getNodeAuthOptions (nodeType : Option INodeTypeDescription)
    (nodeVersion : Option Int) (credStore : CredentialsStore)
    (recommendedSuffix : String) : List NodeAuthenticationOption :=
  match nodeType with
  | none => []
  | some nt =>
    let authProp := getMainAuthField (some nt)
    let authProps := (getNodeAuthFields (some nt) nodeVersion).filter
      (fun prop =>
        match authProp with
        | some a => decide (prop.name = a.name)
        | none => false)
    let options := authProps.foldl (fun options field =>
      match field.options with
      | none => options
      | some fieldOptions =>
        options ++ fieldOptions.map (fun option =>
          let optionValue := match option.value with
            | some v => jsToString v
            | none => ""
          let cred := getNodeCredentialForSelectedAuthType nt optionValue
          let hasOverrides := match cred with
            | some c =>
              match getCredentialTypeByName credStore c.name with
              | some t => t.overwrittenPropertiesDefined
              | none => false
            | none => false
          { name :=
              if hasOverrides && ! recommendedSuffix.toList.isSuffixOf option.name.toList then
                option.name ++ " " ++ recommendedSuffix
              else option.name,
            value := optionValue,
            displayOptions := field.displayOptions : NodeAuthenticationOption })) []
    recommendedSort recommendedSuffix options

/- ------------------------------------------------------------------
   nodeTypesUtils.ts: updateNodeAuthType and the stores it touches
   ------------------------------------------------------------------ -/

/-- `INodeUi` restricted to the fields `updateNodeAuthType` reads. -/
structure INodeUi where
  name : String
  type : String
  typeVersion : Int
  parameters : List (String × NodeParameterValue)
deriving DecidableEq, Repr

/-- Modelled from the spec: the node-types store
(`@/stores/nodeTypes.store`) is not in the provided sources; its
`getNodeType(type, version)` is an abstract lookup keyed by both. -/
structure NodeTypesStore where
  types : List ((String × Int) × INodeTypeDescription)
deriving DecidableEq, Repr

/-- `useNodeTypesStore().getNodeType(type, version)`. -/
def storeGetNodeType (s : NodeTypesStore) (type : String) (version : Int) :
    Option INodeTypeDescription :=
  (s.types.find? (fun e => decide (e.1 = (type, version)))).map Prod.snd

/-- The `updateInformation` record built by `updateNodeAuthType`. -/
structure UpdateInformation where
  name : String
  parameters : List (String × NodeParameterValue)
deriving DecidableEq, Repr

/-- Modelled from the spec: the workflows store
(`@/stores/workflows.store`) is not in the provided sources; its state is
modelled as the trace of `updateNodeProperties` calls it has received, which
is exactly what `updateNodeAuthType` can change. -/
structure WorkflowsStore where
  updates : List UpdateInformation
deriving DecidableEq, Repr

/-- `useWorkflowsStore().updateNodeProperties(u)`: the store receives one
more update. -/
def updateNodeProperties (s : WorkflowsStore) (u : UpdateInformation) :
    WorkflowsStore :=
  ⟨s.updates ++ [u]⟩

/-- JS object spread with override:
`{ ...node.parameters, [key]: value }` on an insertion-ordered object. -/
def objectSet (ps : List (String × NodeParameterValue)) (k : String)
    (v : NodeParameterValue) : List (String × NodeParameterValue) :=
  if ps.any (fun e => decide (e.1 = k)) then
    ps.map (fun e => if e.1 = k then (k, v) else e)
  else ps ++ [(k, v)]

/-- `updateNodeAuthType` (nodeTypesUtils.ts:369-389), with the two stores it
touches passed and returned explicitly.  The returned `WorkflowsStore` is
the store state after the call. -/
def updateNodeAuthType (node : Option INodeUi) (type : String)
    (ntStore : NodeTypesStore) (wfStore : WorkflowsStore) : WorkflowsStore :=
  match node with
  | none => wfStore
  | some n =>
    match storeGetNodeType ntStore n.type n.typeVersion with
    | none => wfStore
    | some nodeType =>
      match getMainAuthField (some nodeType) with
      | none => wfStore
      | some nodeAuthField =>
        updateNodeProperties wfStore
          ⟨n.name, objectSet n.parameters nodeAuthField.name (.str type)⟩

/- ------------------------------------------------------------------
   nodeTypesUtils.ts: isResourceMapperFieldListStale
   ------------------------------------------------------------------ -/

/-- `ResourceMapperField` restricted to the properties
`isResourceMapperFieldListStale` compares.  `canBeUsedToMatch` and `type`
are optional in the source; `type`'s `FieldType` union is modelled by its
string tag. -/
structure ResourceMapperField where
  id : String
  displayName : String
  required : Bool
  defaultMatch : Bool
  display : Bool
  canBeUsedToMatch : Option Bool
  type : Option String
deriving DecidableEq, Repr

/-- `map.set(k, v)` on a JS `Map` modelled as an insertion-ordered
association list: overwrite in place, else append. -/
def jsMapSet (m : List (String × ResourceMapperField)) (k : String)
    (v : ResourceMapperField) : List (String × ResourceMapperField) :=
  if m.any (fun e => decide (e.1 = k)) then
    m.map (fun e => if e.1 = k then (k, v) else e)
  else m ++ [(k, v)]

/-- `map.get(k)`. -/
def jsMapGet (m : List (String × ResourceMapperField)) (k : String) :
    Option ResourceMapperField :=
  (m.find? (fun e => decide (e.1 = k))).map Prod.snd

/-- `new Map(newFields.map(field => [field.id, field]))`: the `Map`
constructor inserts pairs left to right, later pairs overwriting earlier
ones with the same key. -/
def mapFromFields (fields : List ResourceMapperField) :
    List (String × ResourceMapperField) :=
  fields.foldl (fun m field => jsMapSet m field.id field) []

/-- The property-by-property comparison of
`isResourceMapperFieldListStale` (nodeTypesUtils.ts:454-463). -/
def resourceMapperFieldChanged (oldField newField : ResourceMapperField) : Bool :=
  decide (oldField.displayName ≠ newField.displayName) ||
  decide (oldField.required ≠ newField.required) ||
  decide (oldField.defaultMatch ≠ newField.defaultMatch) ||
  decide (oldField.display ≠ newField.display) ||
  decide (oldField.canBeUsedToMatch ≠ newField.canBeUsedToMatch) ||
  decide (oldField.type ≠ newField.type)

/-- `isResourceMapperFieldListStale` (nodeTypesUtils.ts:433-467). -/
def isResourceMapperFieldListStale (oldFields newFields : List ResourceMapperField) :
    Bool :=
  if oldFields.length ≠ newFields.length then true
  else
    let newFieldsMap := mapFromFields newFields
    oldFields.any (fun oldField =>
      match jsMapGet newFieldsMap oldField.id with
      | none => true
      | some newField => resourceMapperFieldChanged oldField newField)

/- ------------------------------------------------------------------
   nodeTypesUtils.ts: parseResourceMapperFieldName and the regex
   /value\[\"(.+)\"\]/
   ------------------------------------------------------------------ -/

/-- JS line terminators, the characters `.` does not match without the `s`
flag. -/
def isLineTerminator (c : Char) : Bool :=
  c = '\n' || c = '\r' || c = '\u2028' || c = '\u2029'

/-- The opening literal `value["` of `RESOURCE_MAPPER_FIELD_NAME_REGEX`. -/
def rmOpenLit : List Char := "value[\"".toList

/-- The closing literal `"]` of `RESOURCE_MAPPER_FIELD_NAME_REGEX`. -/
def rmCloseLit : List Char := "\"]".toList

/-- Backtracking of the greedy `(.+)` followed by `"]`: try group lengths
from `k` down to `1`, returning the first (longest) length at which the
closing literal follows. -/
def rmGreedy (rest : List Char) : Nat → Option (List Char)
  | 0 => none
  | k + 1 =>
    if rmCloseLit.isPrefixOf (rest.drop (k + 1)) then some (rest.take (k + 1))
    else rmGreedy rest k

/-- Attempt to match `/value\[\"(.+)\"\]/` at the start of `cs`, returning
the capture group: the literal `value["`, then a maximal-first run of
non-line-terminator characters, then `"]`. -/
def rmMatchAt (cs : List Char) : Option (List Char) :=
  if rmOpenLit.isPrefixOf cs then
    rmGreedy (cs.drop rmOpenLit.length)
      ((cs.drop rmOpenLit.length).takeWhile (fun c => ! isLineTerminator c)).length
  else none

/-- `fullName.match(RESOURCE_MAPPER_FIELD_NAME_REGEX)`: first (leftmost)
match wins, as in a non-global JS regex. -/
def rmFind : List Char → Option (List Char)
  | [] => rmMatchAt []
  | c :: cs =>
    match rmMatchAt (c :: cs) with
    | some g => some g
    | none => rmFind cs

/-- `parseResourceMapperFieldName` (nodeTypesUtils.ts:413-418):
`match.pop()` on a successful non-global match is capture group 1. -/
def parseResourceMapperFieldName (fullName : String) : String :=
  match rmFind fullName.toList with
  | some group => String.mk group
  | none => fullName

/- ==================================================================
   Theorems
   ================================================================== -/

/-- `isShared` unfolded into the property it tests. -/
theorem isShared_iff (r : BadgeResource) :
    isShared r = true ↔
      r.hasSharedKey = true ∧ ∃ l, r.sharedWithProjects = some l ∧ l ≠ [] := by
  unfold isShared
  cases r.sharedWithProjects with
  | none => simp
  | some l =>
    simp only [Bool.and_eq_true, decide_eq_true_eq]
    constructor
    · rintro ⟨hk, hl⟩
      exact ⟨hk, l, rfl, by simpa [← List.length_eq_zero] using hl⟩
    · rintro ⟨hk, l', hl', hne⟩
      cases hl'
      exact ⟨hk, by simpa [← List.length_eq_zero] using hne⟩

/-- C2: `isNodeParameterRequired` returns `true` for every node type and
parameter; the dependency walk never changes the result because the inner
`find` callback returns no value (so finds nothing) and the `forEach`
callback's returns are discarded. -/
theorem isNodeParameterRequired_eq_true (nodeType : INodeTypeDescription)
    (parameter : INodeProperties) :
    isNodeParameterRequired nodeType parameter = true := by
  unfold isNodeParameterRequired
  cases parameter.showOf <;> rfl

/-- C3: the badge component's `projectState` is exhaustive over personal and
team ownership: it always evaluates to one of the six
owned/personal/team (shared or not) states, and the
`ProjectState.Unknown` fallback branch is unreachable. -/
theorem projectState_exhaustive (r : BadgeResource) (pp : Option Project) :
    (projectState r pp = .owned ∨ projectState r pp = .sharedOwned ∨
     projectState r pp = .personal ∨ projectState r pp = .sharedPersonal ∨
     projectState r pp = .team ∨ projectState r pp = .sharedTeam) ∧
    projectState r pp ≠ .unknown := by
  unfold projectState
  cases h1 : ownedCond r pp <;> cases h2 : homeTypeIsTeam r <;>
    cases h3 : isShared r <;> simp

/-- C5: `projectState` is a shared variant exactly when the resource has a
`sharedWithProjects` property holding a non-empty list, and in either case
it is the shared/non-shared variant of the same ownership kind. -/
theorem projectState_shared_iff (r : BadgeResource) (pp : Option Project) :
    projectState r pp = applyShared (isShared r) (baseState r pp) ∧
    ((projectState r pp = .sharedOwned ∨ projectState r pp = .sharedPersonal ∨
      projectState r pp = .sharedTeam) ↔
      r.hasSharedKey = true ∧ ∃ l, r.sharedWithProjects = some l ∧ l ≠ []) := by
  have hs := isShared_iff r
  unfold projectState baseState applyShared
  cases h1 : ownedCond r pp <;> cases h2 : homeTypeIsTeam r <;>
    cases h3 : isShared r <;> simp_all <;> assumption

/-- C6: every node-type-metadata lookup returns its neutral value on a null
node type: `getMainAuthField` returns null and the list-valued lookups
return the empty list, for all values of their other arguments. -/
theorem nullNodeType_neutral :
    getMainAuthField none = none ∧
    (∀ v store sfx, getNodeAuthOptions none v store sfx = []) ∧
    (∀ v, getNodeAuthFields none v = []) ∧
    (∀ authType, getAllNodeCredentialForAuthType none authType = []) ∧
    (∀ credType, getCredentialsRelatedFields none credType = []) := by
  refine ⟨rfl, fun v store sfx => rfl, fun v => rfl, fun a => rfl, fun c => ?_⟩
  unfold getCredentialsRelatedFields
  cases c.bind INodeCredentialDescription.showOf <;> rfl

/-- C1 (amended): `updateNodeAuthType` leaves the workflows store unchanged
exactly when the node is null, its node type is not in the node-types
store, or that node type has no main authentication field; otherwise it
writes an update to the workflows store. -/
theorem updateNodeAuthType_store_effect (node : Option INodeUi) (type : String)
    (ntStore : NodeTypesStore) (wfStore : WorkflowsStore) :
    updateNodeAuthType node type ntStore wfStore = wfStore ↔
      (node = none ∨ ∃ n, node = some n ∧
        (storeGetNodeType ntStore n.type n.typeVersion = none ∨
         ∃ nt, storeGetNodeType ntStore n.type n.typeVersion = some nt ∧
           getMainAuthField (some nt) = none)) := by
  cases node with
  | none => simp [updateNodeAuthType]
  | some n =>
    cases hnt : storeGetNodeType ntStore n.type n.typeVersion with
    | none => simp [updateNodeAuthType, hnt]
    | some nt =>
      cases hf : getMainAuthField (some nt) with
      | none => simp [updateNodeAuthType, hnt, hf]
      | some f =>
        simp only [updateNodeAuthType, hnt, hf, updateNodeProperties]
        constructor
        · intro h
          have := congrArg (fun s => s.updates.length) h
          simp at this
        · rintro (h | ⟨n', hn', (h | ⟨nt', hnt', hf'⟩)⟩)
          · exact absurd h (by simp)
          · cases hn'; simp [hnt] at h
          · cases hn'; rw [hnt] at hnt'; cases hnt'; simp [hf] at hf'

/-- C1 (counterexample): with equal arguments, `getNodeAuthOptions` returns
different results under two credentials-store states, and
`updateNodeAuthType` changes the workflows store, so not every exported
function is a pure, state-preserving function. -/
theorem nodeTypesUtils_not_pure_counterexample :
    getNodeAuthOptions
        (some ⟨[⟨"authentication", none, some [⟨"API Key", some (.str "apiKey")⟩]⟩],
          some [⟨"testApi", some ⟨some [("authentication", some [.str "apiKey"])]⟩⟩]⟩)
        none ⟨[("testApi", ⟨true⟩)]⟩ "(recommended)" ≠
      getNodeAuthOptions
        (some ⟨[⟨"authentication", none, some [⟨"API Key", some (.str "apiKey")⟩]⟩],
          some [⟨"testApi", some ⟨some [("authentication", some [.str "apiKey"])]⟩⟩]⟩)
        none ⟨[]⟩ "(recommended)" ∧
    updateNodeAuthType (some ⟨"MyNode", "testType", 1, []⟩) "apiKey"
        ⟨[(("testType", 1),
          ⟨[⟨"authentication", none, some [⟨"API Key", some (.str "apiKey")⟩]⟩],
            some [⟨"testApi", some ⟨some [("authentication", some [.str "apiKey"])]⟩⟩]⟩)]⟩
        ⟨[]⟩ ≠ ⟨[]⟩ := by
  constructor <;> decide

/-- A successful `find?` splits its list at the first satisfying element. -/
theorem find?_eq_some_split {α : Type} (p : α → Bool) (l : List α) (a : α)
    (h : l.find? p = some a) :
    p a = true ∧ ∃ l₁ l₂, l = l₁ ++ a :: l₂ ∧ ∀ x ∈ l₁, p x = false := by
  induction l with
  | nil => simp at h
  | cons b t ih =>
    by_cases hb : p b
    · rw [List.find?_cons_of_pos _ hb] at h
      cases h
      exact ⟨hb, [], t, rfl, by simp⟩
    · rw [List.find?_cons_of_neg _ hb] at h
      obtain ⟨hpa, l₁, l₂, rfl, hall⟩ := ih h
      refine ⟨hpa, b :: l₁, l₂, rfl, ?_⟩
      intro x hx
      rcases List.mem_cons.1 hx with rfl | hx
      · exact Bool.of_not_eq_true hb
      · exact hall x hx

/-- C7: `getNodeCredentialForSelectedAuthType` returns the first credential
description whose `displayOptions.show` entry for the main auth field's
name (the empty string when `getMainAuthField` is null) contains the given
auth type, and null when no credential description satisfies that
condition. -/
theorem getNodeCredentialForSelectedAuthType_first (nt : INodeTypeDescription)
    (authType : String) (authFieldName : String)
    (hA : authFieldName = match getMainAuthField (some nt) with
      | some f => f.name
      | none => "") :
    (getNodeCredentialForSelectedAuthType nt authType = none ↔
      ∀ c ∈ nt.credentials.getD [],
        credShowIncludes c authFieldName authType = false) ∧
    (∀ c, getNodeCredentialForSelectedAuthType nt authType = some c →
      credShowIncludes c authFieldName authType = true ∧
      ∃ l₁ l₂, nt.credentials.getD [] = l₁ ++ c :: l₂ ∧
        ∀ x ∈ l₁, credShowIncludes x authFieldName authType = false) := by
  subst hA
  unfold getNodeCredentialForSelectedAuthType
  constructor
  · rw [List.find?_eq_none]
    constructor
    · intro h c hc
      exact Bool.of_not_eq_true (h c hc)
    · intro h c hc
      simp [h c hc]
  · intro c hc
    exact find?_eq_some_split _ _ _ hc

/-- `getNodeCredentialForSelectedAuthType` witness data: applying C7 at a
concrete node type whose single credential matches. -/
theorem getNodeCredentialForSelectedAuthType_first_witness :
    credShowIncludes
      ⟨"testApi", some ⟨some [("authentication", some [.str "apiKey"])]⟩⟩
      "authentication" "apiKey" = true :=
  ((getNodeCredentialForSelectedAuthType_first
      ⟨[⟨"authentication", none, some [⟨"API Key", some (.str "apiKey")⟩]⟩],
        some [⟨"testApi", some ⟨some [("authentication", some [.str "apiKey"])]⟩⟩]⟩
      "apiKey" "authentication" (by decide)).2
    ⟨"testApi", some ⟨some [("authentication", some [.str "apiKey"])]⟩⟩
    (by decide)).1

/-- `jsMapSet` on a map without the key appends the pair. -/
theorem jsMapSet_of_not_hasKey (m : List (String × ResourceMapperField))
    (k : String) (v : ResourceMapperField)
    (h : ∀ e ∈ m, e.1 ≠ k) : jsMapSet m k v = m ++ [(k, v)] := by
  unfold jsMapSet
  have : m.any (fun e => decide (e.1 = k)) = false := by
    simp only [List.any_eq_false, decide_eq_true_eq]
    exact h
  simp [this]

/-- Building the JS `Map` from fields with pairwise-distinct ids just pairs
each field with its id, in order. -/
theorem mapFromFields_of_nodup (fields : List ResourceMapperField)
    (acc : List (String × ResourceMapperField))
    (hdisj : ∀ f ∈ fields, ∀ e ∈ acc, e.1 ≠ f.id)
    (hnd : (fields.map ResourceMapperField.id).Nodup) :
    fields.foldl (fun m field => jsMapSet m field.id field) acc =
      acc ++ fields.map (fun f => (f.id, f)) := by
  induction fields generalizing acc with
  | nil => simp
  | cons f t ih =>
    simp only [List.foldl_cons]
    rw [jsMapSet_of_not_hasKey _ _ _ (hdisj f (by simp))]
    rw [List.map_cons, List.nodup_cons] at hnd
    rw [ih (acc ++ [(f.id, f)]) ?_ hnd.2]
    · simp
    · intro g hg e he
      rcases List.mem_append.1 he with he | he
      · exact hdisj g (List.mem_cons_of_mem _ hg) e he
      · simp only [List.mem_singleton] at he
        subst he
        intro hbad
        apply hnd.1
        rw [show f.id = g.id from hbad]
        exact List.mem_map_of_mem ResourceMapperField.id hg

/-- With pairwise-distinct ids, looking a field's id up in the constructed
map returns that field. -/
theorem jsMapGet_mapFromFields (l : List ResourceMapperField)
    (hnd : (l.map ResourceMapperField.id).Nodup)
    (f : ResourceMapperField) (hf : f ∈ l) :
    jsMapGet (mapFromFields l) f.id = some f := by
  unfold mapFromFields jsMapGet
  rw [mapFromFields_of_nodup l [] (by simp) hnd]
  simp only [List.nil_append]
  induction l with
  | nil => cases hf
  | cons g t ih =>
    rw [List.map_cons, List.nodup_cons] at hnd
    rcases List.mem_cons.1 hf with rfl | hf
    · simp [List.find?_cons_of_pos]
    · have hne : g.id ≠ f.id := by
        intro hbad
        exact hnd.1 (hbad ▸ List.mem_map_of_mem ResourceMapperField.id hf)
      rw [List.map_cons, List.find?_cons_of_neg _ (by simpa using hne)]
      exact ih hnd.2 hf

/-- C9: `isResourceMapperFieldListStale` is reflexive on well-formed field
lists: with pairwise-distinct ids, a list is never stale against itself. -/
theorem isResourceMapperFieldListStale_refl (l : List ResourceMapperField)
    (hnd : (l.map ResourceMapperField.id).Nodup) :
    isResourceMapperFieldListStale l l = false := by
  unfold isResourceMapperFieldListStale
  rw [if_neg (by simp)]
  simp only [List.any_eq_false]
  intro f hf
  rw [jsMapGet_mapFromFields l hnd f hf]
  simp [resourceMapperFieldChanged]

/-- C9 witness: a concrete two-element list with distinct ids is not stale
against itself. -/
theorem isResourceMapperFieldListStale_refl_witness :
    isResourceMapperFieldListStale
      [⟨"a", "A", true, false, true, none, none⟩,
       ⟨"b", "B", false, true, false, some true, some "string"⟩]
      [⟨"a", "A", true, false, true, none, none⟩,
       ⟨"b", "B", false, true, false, some true, some "string"⟩] = false :=
  isResourceMapperFieldListStale_refl
    [⟨"a", "A", true, false, true, none, none⟩,
     ⟨"b", "B", false, true, false, some true, some "string"⟩] (by decide)

/-- Elements produced by one push step of `getNodeAuthFields` come from the
accumulator or are the pushed field, version-matched. -/
theorem mem_authFieldsAddField {v : Option Int} {acc : List INodeProperties}
    {x f : INodeProperties} (h : f ∈ authFieldsAddField v acc x) :
    f ∈ acc ∨ (f = x ∧ isNodeFieldMatchingNodeVersion x v = true) := by
  unfold authFieldsAddField at h
  split at h
  · rename_i hcond
    rcases List.mem_append.1 h with h | h
    · exact Or.inl h
    · simp only [List.mem_singleton] at h
      exact Or.inr ⟨h, hcond.2⟩
  · exact Or.inl h

/-- One push step of `getNodeAuthFields` keeps the accumulator's elements. -/
theorem subset_authFieldsAddField {v : Option Int} {acc : List INodeProperties}
    {x f : INodeProperties} (h : f ∈ acc) : f ∈ authFieldsAddField v acc x := by
  unfold authFieldsAddField
  split
  · exact List.mem_append.2 (Or.inl h)
  · exact h

/-- One push step of `getNodeAuthFields` preserves `Nodup`. -/
theorem nodup_authFieldsAddField {v : Option Int} {acc : List INodeProperties}
    {x : INodeProperties} (h : acc.Nodup) : (authFieldsAddField v acc x).Nodup := by
  unfold authFieldsAddField
  split
  · rename_i hcond
    simp [List.nodup_append, h, hcond.1]
  · exact h

/-- The inner fold over the filtered properties, characterised. -/
theorem mem_foldl_addField {v : Option Int} {fields : List INodeProperties}
    {acc : List INodeProperties} {f : INodeProperties}
    (h : f ∈ fields.foldl (authFieldsAddField v) acc) :
    f ∈ acc ∨ (f ∈ fields ∧ isNodeFieldMatchingNodeVersion f v = true) := by
  induction fields generalizing acc with
  | nil => exact Or.inl h
  | cons x t ih =>
    simp only [List.foldl_cons] at h
    rcases ih h with h | ⟨hmem, hver⟩
    · rcases mem_authFieldsAddField h with h | ⟨rfl, hver⟩
      · exact Or.inl h
      · exact Or.inr ⟨List.mem_cons_self _ _, hver⟩
    · exact Or.inr ⟨List.mem_cons_of_mem _ hmem, hver⟩

theorem nodup_foldl_addField {v : Option Int} {fields : List INodeProperties}
    {acc : List INodeProperties} (h : acc.Nodup) :
    (fields.foldl (authFieldsAddField v) acc).Nodup := by
  induction fields generalizing acc with
  | nil => exact h
  | cons x t ih => exact ih (nodup_authFieldsAddField h)

/-- The fold over one credential's `show` keys, characterised. -/
theorem mem_foldl_authFieldsForOption {nt : INodeTypeDescription}
    {v : Option Int} {keys : List String} {acc : List INodeProperties}
    {f : INodeProperties}
    (h : f ∈ keys.foldl (authFieldsForOption nt v) acc) :
    f ∈ acc ∨ (f ∈ nt.properties ∧ f.name ∈ keys ∧
      isNodeFieldMatchingNodeVersion f v = true) := by
  induction keys generalizing acc with
  | nil => exact Or.inl h
  | cons k t ih =>
    simp only [List.foldl_cons] at h
    rcases ih h with h | ⟨hp, hk, hv⟩
    · unfold authFieldsForOption at h
      rcases mem_foldl_addField h with h | ⟨hmem, hver⟩
      · exact Or.inl h
      · have := List.mem_filter.1 hmem
        refine Or.inr ⟨this.1, ?_, hver⟩
        simp only [decide_eq_true_eq] at this
        simp [this.2]
    · exact Or.inr ⟨hp, List.mem_cons_of_mem _ hk, hv⟩

theorem nodup_foldl_authFieldsForOption {nt : INodeTypeDescription}
    {v : Option Int} {keys : List String} {acc : List INodeProperties}
    (h : acc.Nodup) : (keys.foldl (authFieldsForOption nt v) acc).Nodup := by
  induction keys generalizing acc with
  | nil => exact h
  | cons k t ih => exact ih (nodup_foldl_addField h)

/-- The outer fold over the credentials, characterised. -/
theorem mem_foldl_authFieldsForCred {nt : INodeTypeDescription}
    {v : Option Int} {creds : List INodeCredentialDescription}
    {acc : List INodeProperties} {f : INodeProperties}
    (h : f ∈ creds.foldl (authFieldsForCred nt v) acc) :
    f ∈ acc ∨ (f ∈ nt.properties ∧ isNodeFieldMatchingNodeVersion f v = true ∧
      ∃ cred ∈ creds, ∃ sh, cred.showOf = some sh ∧ f.name ∈ showKeys sh) := by
  induction creds generalizing acc with
  | nil => exact Or.inl h
  | cons cred t ih =>
    simp only [List.foldl_cons] at h
    rcases ih h with h | ⟨hp, hv, c, hc, sh, hsh, hk⟩
    · unfold authFieldsForCred at h
      cases hsh : cred.showOf with
      | none => rw [hsh] at h; exact Or.inl h
      | some sh =>
        rw [hsh] at h
        rcases mem_foldl_authFieldsForOption h with h | ⟨hp, hk, hv⟩
        · exact Or.inl h
        · exact Or.inr ⟨hp, hv, cred, List.mem_cons_self _ _, sh, hsh, hk⟩
    · exact Or.inr ⟨hp, hv, c, List.mem_cons_of_mem _ hc, sh, hsh, hk⟩

theorem nodup_foldl_authFieldsForCred {nt : INodeTypeDescription}
    {v : Option Int} {creds : List INodeCredentialDescription}
    {acc : List INodeProperties} (h : acc.Nodup) :
    (creds.foldl (authFieldsForCred nt v) acc).Nodup := by
  induction creds generalizing acc with
  | nil => exact h
  | cons cred t ih =>
    refine ih ?_
    unfold authFieldsForCred
    cases cred.showOf with
    | none => exact h
    | some sh => exact nodup_foldl_authFieldsForOption h

/-- Elements of `getNodeAuthFields` satisfy the membership, key-origin and
version properties. -/
theorem mem_getNodeAuthFields {nt : INodeTypeDescription} {v : Option Int}
    {f : INodeProperties} (h : f ∈ getNodeAuthFields (some nt) v) :
    f ∈ nt.properties ∧ isNodeFieldMatchingNodeVersion f v = true ∧
      ∃ cred ∈ nt.credentials.getD [], ∃ sh, cred.showOf = some sh ∧
        f.name ∈ showKeys sh := by
  cases hcreds : nt.credentials with
  | none => simp only [getNodeAuthFields, hcreds] at h; cases h
  | some creds =>
    simp only [getNodeAuthFields, hcreds] at h
    split at h
    · rcases mem_foldl_authFieldsForCred h with h | hP
      · cases h
      · simpa [hcreds] using hP
    · cases h

/-- C8: every element of `getNodeAuthFields` is one of the node type's
properties, its name is a key of some credential's `displayOptions.show`,
it matches the node version, and the returned list has no duplicates. -/
theorem getNodeAuthFields_sound (nt : INodeTypeDescription) (v : Option Int) :
    (∀ f ∈ getNodeAuthFields (some nt) v,
      f ∈ nt.properties ∧
      (∃ cred ∈ nt.credentials.getD [], ∃ sh, cred.showOf = some sh ∧
        f.name ∈ showKeys sh) ∧
      isNodeFieldMatchingNodeVersion f v = true) ∧
    (getNodeAuthFields (some nt) v).Nodup := by
  constructor
  · intro f hf
    obtain ⟨h1, h2, h3⟩ := mem_getNodeAuthFields hf
    exact ⟨h1, h3, h2⟩
  · cases hcreds : nt.credentials with
    | none => simp only [getNodeAuthFields, hcreds]; exact List.nodup_nil
    | some creds =>
      simp only [getNodeAuthFields, hcreds]
      split
      · exact nodup_foldl_authFieldsForCred List.nodup_nil
      · exact List.nodup_nil

/-- C8 witness: the characterisation applied at a concrete node type whose
auth-fields list contains the `authentication` property. -/
theorem getNodeAuthFields_sound_witness :
    (⟨"authentication", none, some [⟨"API Key", some (.str "apiKey")⟩]⟩ :
        INodeProperties) ∈
      (⟨[⟨"authentication", none, some [⟨"API Key", some (.str "apiKey")⟩]⟩],
        some [⟨"testApi", some ⟨some [("authentication", some [.str "apiKey"])]⟩⟩]⟩ :
        INodeTypeDescription).properties ∧
    (getNodeAuthFields
      (some ⟨[⟨"authentication", none, some [⟨"API Key", some (.str "apiKey")⟩]⟩],
        some [⟨"testApi", some ⟨some [("authentication", some [.str "apiKey"])]⟩⟩]⟩)
      (some 2)).Nodup :=
  ⟨((getNodeAuthFields_sound
      ⟨[⟨"authentication", none, some [⟨"API Key", some (.str "apiKey")⟩]⟩],
        some [⟨"testApi", some ⟨some [("authentication", some [.str "apiKey"])]⟩⟩]⟩
      (some 2)).1
    ⟨"authentication", none, some [⟨"API Key", some (.str "apiKey")⟩]⟩
    (by decide)).1,
   (getNodeAuthFields_sound
      ⟨[⟨"authentication", none, some [⟨"API Key", some (.str "apiKey")⟩]⟩],
        some [⟨"testApi", some ⟨some [("authentication", some [.str "apiKey"])]⟩⟩]⟩
      (some 2)).2⟩

/-- A key is present in an association dictionary. -/
def dictHasKey (d : List (String × List String)) (k : String) : Prop :=
  ∃ e ∈ d, e.1 = k

/-- `dictUpsert` makes its key present. -/
theorem dictUpsert_hasKey_self (d : List (String × List String)) (k : String)
    (vs : List String) : dictHasKey (dictUpsert d k vs) k := by
  unfold dictUpsert dictHasKey
  split
  · rename_i hany
    simp only [List.any_eq_true, decide_eq_true_eq] at hany
    obtain ⟨e, he, hek⟩ := hany
    refine ⟨(k, (((d.find? (fun e => decide (e.1 = k))).map Prod.snd).getD []) ++ vs),
      ?_, rfl⟩
    have := List.mem_map_of_mem
      (fun e => if e.1 = k then
        (k, (((d.find? (fun e => decide (e.1 = k))).map Prod.snd).getD []) ++ vs)
        else e) he
    simpa [hek] using this
  · exact ⟨_, List.mem_append.2 (Or.inr (List.mem_singleton.2 rfl)), rfl⟩

/-- `dictUpsert` keeps every key that was already present. -/
theorem dictUpsert_hasKey_mono (d : List (String × List String)) (k k' : String)
    (vs : List String) (h : dictHasKey d k') : dictHasKey (dictUpsert d k vs) k' := by
  obtain ⟨e, he, hek⟩ := h
  unfold dictUpsert dictHasKey
  split
  · by_cases hk : e.1 = k
    · refine ⟨(k, (((d.find? (fun e => decide (e.1 = k))).map Prod.snd).getD []) ++ vs),
        ?_, by rw [← hek, hk]⟩
      have := List.mem_map_of_mem
        (fun e => if e.1 = k then
          (k, (((d.find? (fun e => decide (e.1 = k))).map Prod.snd).getD []) ++ vs)
          else e) he
      simpa [hk] using this
    · refine ⟨e, ?_, hek⟩
      have := List.mem_map_of_mem
        (fun e => if e.1 = k then
          (k, (((d.find? (fun e => decide (e.1 = k))).map Prod.snd).getD []) ++ vs)
          else e) he
      simpa [hk] using this
  · exact ⟨e, List.mem_append.2 (Or.inl he), hek⟩

/-- The fold adding one credential's entries keeps existing keys. -/
theorem foldl_upsert_hasKey_mono
    (sh : List (String × Option (List NodeParameterValue)))
    (d : List (String × List String)) (k : String) (h : dictHasKey d k) :
    dictHasKey (sh.foldl (fun dict entry =>
      dictUpsert dict entry.1 (dependentValuesForEntry entry)) d) k := by
  induction sh generalizing d with
  | nil => exact h
  | cons e t ih =>
    simp only [List.foldl_cons]
    exact ih _ (dictUpsert_hasKey_mono _ _ _ _ h)

/-- The fold adding one credential's entries makes each entry's key present. -/
theorem foldl_upsert_hasKey_contrib
    (sh : List (String × Option (List NodeParameterValue)))
    (d : List (String × List String))
    (e : String × Option (List NodeParameterValue)) (he : e ∈ sh) :
    dictHasKey (sh.foldl (fun dict entry =>
      dictUpsert dict entry.1 (dependentValuesForEntry entry)) d) e.1 := by
  induction sh generalizing d with
  | nil => cases he
  | cons x t ih =>
    simp only [List.foldl_cons]
    rcases List.mem_cons.1 he with rfl | he
    · exact foldl_upsert_hasKey_mono _ _ _ (dictUpsert_hasKey_self _ _ _)
    · exact ih _ he

/-- Processing one credential keeps existing keys. -/
theorem dependentValuesForCred_hasKey_mono (d : List (String × List String))
    (cred : INodeCredentialDescription) (k : String) (h : dictHasKey d k) :
    dictHasKey (dependentValuesForCred d cred) k := by
  unfold dependentValuesForCred
  cases cred.showOf with
  | none => exact h
  | some sh => exact foldl_upsert_hasKey_mono sh d k h

/-- The credentials fold keeps existing keys. -/
theorem foldl_dependentValuesForCred_mono
    (creds : List INodeCredentialDescription) (d : List (String × List String))
    (k : String) (h : dictHasKey d k) :
    dictHasKey (creds.foldl dependentValuesForCred d) k := by
  induction creds generalizing d with
  | nil => exact h
  | cons c t ih =>
    simp only [List.foldl_cons]
    exact ih _ (dependentValuesForCred_hasKey_mono _ _ _ h)

/-- After the credentials fold, every key contributed by any processed
credential's `show` object is present. -/
theorem foldl_dependentValuesForCred_hasKey
    (creds : List INodeCredentialDescription) (d : List (String × List String))
    (cred : INodeCredentialDescription) (hcred : cred ∈ creds)
    (sh : List (String × Option (List NodeParameterValue)))
    (hsh : cred.showOf = some sh) (k : String) (hk : k ∈ showKeys sh) :
    dictHasKey (creds.foldl dependentValuesForCred d) k := by
  induction creds generalizing d with
  | nil => cases hcred
  | cons c t ih =>
    simp only [List.foldl_cons]
    rcases List.mem_cons.1 hcred with rfl | hcred
    · have hstep : dictHasKey (dependentValuesForCred d cred) k := by
        unfold dependentValuesForCred
        rw [hsh]
        obtain ⟨e, he, hek⟩ := List.mem_map.1 hk
        exact hek ▸ foldl_upsert_hasKey_contrib sh d e he
      exact foldl_dependentValuesForCred_mono t _ k hstep
    · exact ih _ hcred

/-- A present key makes the association-list `find?` succeed. -/
theorem dict_find?_isSome (d : List (String × List String)) (k : String)
    (h : dictHasKey d k) :
    (d.find? (fun e => decide (e.1 = k))).isSome = true := by
  obtain ⟨e, he, hek⟩ := h
  induction d with
  | nil => cases he
  | cons x t ih =>
    by_cases hx : x.1 = k
    · rw [List.find?_cons_of_pos _ (by simpa using hx)]
      rfl
    · rcases List.mem_cons.1 he with rfl | he
      · exact absurd hek hx
      · rw [List.find?_cons_of_neg _ (by simpa using hx)]
        exact ih he

/-- C4: every field `getMainAuthField` hands to `findAlternativeAuthField`
has a name that is a key of some credential's `displayOptions.show`, and
the `dependentAuthFieldValues[field.name]` lookup is therefore defined, so
the `.includes` call never dereferences undefined. -/
theorem findAlternativeAuthField_lookup_defined (nt : INodeTypeDescription)
    (f : INodeProperties) (hf : f ∈ getNodeAuthFields (some nt) none) :
    (∃ cred ∈ nt.credentials.getD [], ∃ sh, cred.showOf = some sh ∧
      f.name ∈ showKeys sh) ∧
    ((buildDependentAuthFieldValues nt).find?
      (fun e => decide (e.1 = f.name))).isSome = true := by
  obtain ⟨-, -, hkey⟩ := mem_getNodeAuthFields hf
  refine ⟨hkey, ?_⟩
  obtain ⟨cred, hcred, sh, hsh, hk⟩ := hkey
  exact dict_find?_isSome _ _
    (foldl_dependentValuesForCred_hasKey _ _ cred hcred sh hsh _ hk)

/-- C4 witness: the lookup-definedness applied at a concrete node type with
one auth field. -/
theorem findAlternativeAuthField_lookup_defined_witness :
    ((buildDependentAuthFieldValues
      ⟨[⟨"authentication", none, some [⟨"API Key", some (.str "apiKey")⟩]⟩],
        some [⟨"testApi", some ⟨some [("authentication", some [.str "apiKey"])]⟩⟩]⟩).find?
      (fun e => decide (e.1 =
        (⟨"authentication", none, some [⟨"API Key", some (.str "apiKey")⟩]⟩ :
          INodeProperties).name))).isSome = true :=
  (findAlternativeAuthField_lookup_defined
    ⟨[⟨"authentication", none, some [⟨"API Key", some (.str "apiKey")⟩]⟩],
      some [⟨"testApi", some ⟨some [("authentication", some [.str "apiKey"])]⟩⟩]⟩
    ⟨"authentication", none, some [⟨"API Key", some (.str "apiKey")⟩]⟩
    (by decide)).2

/-- Unfolding step of the greedy backtracking. -/
theorem rmGreedy_succ (rest : List Char) (k : Nat) :
    rmGreedy rest (k + 1) =
      if rmCloseLit.isPrefixOf (rest.drop (k + 1)) then some (rest.take (k + 1))
      else rmGreedy rest k := rfl

/-- On input `g ++ "\"]"` the greedy group is exactly `g`. -/
theorem rmGreedy_exact (g : List Char) (hne : g ≠ []) :
    rmGreedy (g ++ rmCloseLit) (g.length + 2) = some g := by
  have h2 : rmCloseLit.isPrefixOf ((g ++ rmCloseLit).drop (g.length + 2)) = false := by
    rw [List.drop_eq_nil_of_le (by simp [rmCloseLit])]
    decide
  have h1 : rmCloseLit.isPrefixOf ((g ++ rmCloseLit).drop (g.length + 1)) = false := by
    have e2 : (g ++ rmCloseLit).drop (g.length + 1) = [']'] := by
      rw [show g ++ rmCloseLit = (g ++ ['"']) ++ [']'] by simp [rmCloseLit],
        show g.length + 1 = (g ++ ['"']).length by simp, List.drop_left]
    rw [e2]
    decide
  have h0 : rmCloseLit.isPrefixOf ((g ++ rmCloseLit).drop g.length) = true := by
    rw [List.drop_left]
    decide
  obtain ⟨m, hm⟩ : ∃ m, g.length = m + 1 := by
    cases g with
    | nil => exact absurd rfl hne
    | cons a t => exact ⟨t.length, by simp⟩
  show rmGreedy (g ++ rmCloseLit) (g.length + 1 + 1) = some g
  rw [rmGreedy_succ, if_neg (by rw [show g.length + 1 + 1 = g.length + 2 from rfl, h2]; simp)]
  rw [rmGreedy_succ, if_neg (by rw [h1]; simp)]
  rw [hm, rmGreedy_succ, if_pos (by rw [show m + 1 = g.length from hm.symm, h0])]
  rw [show m + 1 = g.length from hm.symm, List.take_left]

/-- `takeWhile` passes over a block of non-line-terminator characters. -/
theorem takeWhile_append_nonLT (g r : List Char)
    (hg : ∀ c ∈ g, isLineTerminator c = false) :
    (g ++ r).takeWhile (fun c => ! isLineTerminator c) =
      g ++ r.takeWhile (fun c => ! isLineTerminator c) := by
  induction g with
  | nil => rfl
  | cons a t ih =>
    rw [List.cons_append,
      List.takeWhile_cons_of_pos (by simp [hg a (List.mem_cons_self _ _)]),
      ih (fun c hc => hg c (List.mem_cons_of_mem _ hc)), List.cons_append]

/-- At the start of `value["` ++ g ++ `"]`, the matcher captures exactly `g`
when `g` is non-empty and free of line terminators. -/
theorem rmMatchAt_exact (g : List Char) (hne : g ≠ [])
    (hlt : ∀ c ∈ g, isLineTerminator c = false) :
    rmMatchAt (rmOpenLit ++ (g ++ rmCloseLit)) = some g := by
  unfold rmMatchAt
  rw [if_pos ( List.isPrefixOf_iff_prefix.2 (List.prefix_append _ _)), List.drop_left,
    takeWhile_append_nonLT g rmCloseLit hlt,
    show rmCloseLit.takeWhile (fun c => ! isLineTerminator c) = rmCloseLit by decide,
    show (g ++ rmCloseLit).length = g.length + 2 by simp [rmCloseLit]]
  exact rmGreedy_exact g hne

/-- A successful match at position 0 is the leftmost match. -/
theorem rmFind_of_matchAt (cs g : List Char) (h : rmMatchAt cs = some g) :
    rmFind cs = some g := by
  cases cs with
  | nil => simpa [rmFind] using h
  | cons c t => simp [rmFind, h]

/-- Soundness of the greedy backtracking: a returned group is a take with
the closing literal right after it. -/
theorem rmGreedy_sound (rest : List Char) (K : Nat) (g : List Char)
    (h : rmGreedy rest K = some g) :
    ∃ k, 1 ≤ k ∧ k ≤ K ∧ g = rest.take k ∧
      rmCloseLit.isPrefixOf (rest.drop k) = true := by
  induction K with
  | zero => simp [rmGreedy] at h
  | succ k ih =>
    rw [rmGreedy_succ] at h
    by_cases hc : rmCloseLit.isPrefixOf (rest.drop (k + 1)) = true
    · rw [if_pos hc] at h
      cases h
      exact ⟨k + 1, by omega, Nat.le_refl _, rfl, hc⟩
    · rw [if_neg hc] at h
      obtain ⟨k', h1, h2, h3, h4⟩ := ih h
      exact ⟨k', h1, by omega, h3, h4⟩

/-- Soundness of the single-position matcher: a successful match at the
start decomposes the input as the regex describes. -/
theorem rmMatchAt_sound (cs g : List Char) (h : rmMatchAt cs = some g) :
    ∃ post, cs = rmOpenLit ++ g ++ rmCloseLit ++ post ∧ g ≠ [] ∧
      ∀ c ∈ g, isLineTerminator c = false := by
  unfold rmMatchAt at h
  by_cases hp : rmOpenLit.isPrefixOf cs = true
  · rw [if_pos hp] at h
    obtain ⟨k, hk1, hk2, hg, hclose⟩ := rmGreedy_sound _ _ _ h
    obtain ⟨t, ht⟩ := List.isPrefixOf_iff_prefix.1 hp
    have hrest : cs.drop rmOpenLit.length = t := by rw [← ht, List.drop_left]
    rw [hrest] at hg hclose hk2
    obtain ⟨post, hpost⟩ := List.isPrefixOf_iff_prefix.1 hclose
    have hkK : k ≤ (t.takeWhile (fun c => ! isLineTerminator c)).length := hk2
    have hkt : k ≤ t.length := le_trans hkK ( List.takeWhile_prefix _).length_le
    have hne : g ≠ [] := by
      apply List.ne_nil_of_length_pos
      rw [hg, List.length_take]
      omega
    have hlt : ∀ c ∈ g, isLineTerminator c = false := by
      intro c hc
      rw [hg] at hc
      have htw : t.take k = (t.takeWhile (fun c => ! isLineTerminator c)).take k := by
        obtain ⟨t2, ht2⟩ := List.takeWhile_prefix (l := t) (fun c => ! isLineTerminator c)
        conv_lhs => rw [← ht2]
        rw [List.take_append_eq_append_take, Nat.sub_eq_zero_of_le hkK,
          List.take_zero, List.append_nil]
      rw [htw] at hc
      have := List.mem_takeWhile_imp (List.take_subset _ _ hc)
      simpa using this
    refine ⟨post, ?_, hne, hlt⟩
    calc cs = rmOpenLit ++ t := ht.symm
      _ = rmOpenLit ++ (t.take k ++ t.drop k) := by rw [List.take_append_drop]
      _ = rmOpenLit ++ (g ++ (rmCloseLit ++ post)) := by rw [← hg, ← hpost]
      _ = rmOpenLit ++ g ++ rmCloseLit ++ post := by simp [List.append_assoc]
  · rw [if_neg hp] at h
    cases h

/-- Soundness of the scan: a successful find matches at some position. -/
theorem rmFind_sound (cs g : List Char) (h : rmFind cs = some g) :
    ∃ pre suf, cs = pre ++ suf ∧ rmMatchAt suf = some g := by
  induction cs with
  | nil => exact ⟨[], [], rfl, by simpa [rmFind] using h⟩
  | cons c t ih =>
    rw [show rmFind (c :: t) =
      (match rmMatchAt (c :: t) with
       | some g => some g
       | none => rmFind t) from rfl] at h
    cases hm : rmMatchAt (c :: t) with
    | some g' =>
      rw [hm] at h
      cases h
      exact ⟨[], c :: t, rfl, hm⟩
    | none =>
      rw [hm] at h
      obtain ⟨pre, suf, rfl, hsuf⟩ := ih h
      exact ⟨c :: pre, suf, rfl, hsuf⟩

/-- Completeness of the greedy backtracking: if some group length works, the
search from any larger bound succeeds. -/
theorem rmGreedy_isSome (rest : List Char) (K k : Nat) (hk1 : 1 ≤ k)
    (hk2 : k ≤ K) (hc : rmCloseLit.isPrefixOf (rest.drop k) = true) :
    (rmGreedy rest K).isSome = true := by
  induction K with
  | zero => omega
  | succ K ih =>
    rw [rmGreedy_succ]
    by_cases h : rmCloseLit.isPrefixOf (rest.drop (K + 1)) = true
    · rw [if_pos h]
      rfl
    · rw [if_neg h]
      have hne : k ≠ K + 1 := fun he => h (he ▸ hc)
      exact ih (by omega)

/-- Completeness of the single-position matcher. -/
theorem rmMatchAt_isSome (g post : List Char) (hne : g ≠ [])
    (hlt : ∀ c ∈ g, isLineTerminator c = false) :
    (rmMatchAt (rmOpenLit ++ (g ++ (rmCloseLit ++ post)))).isSome = true := by
  unfold rmMatchAt
  rw [if_pos ( List.isPrefixOf_iff_prefix.2 (List.prefix_append _ _)), List.drop_left,
    takeWhile_append_nonLT g _ hlt]
  apply rmGreedy_isSome _ _ g.length
  · exact List.length_pos.2 hne
  · simp
  · rw [List.drop_left]
    exact List.isPrefixOf_iff_prefix.2 (List.prefix_append _ _)

/-- A match at the start makes the scan succeed. -/
theorem rmFind_isSome_of_matchAt (cs : List Char)
    (h : (rmMatchAt cs).isSome = true) : (rmFind cs).isSome = true := by
  cases cs with
  | nil => simpa [rmFind] using h
  | cons c t =>
    rw [show rmFind (c :: t) =
      (match rmMatchAt (c :: t) with
       | some g => some g
       | none => rmFind t) from rfl]
    cases hm : rmMatchAt (c :: t) with
    | some g => rfl
    | none => rw [hm] at h; cases h

/-- A match at any position makes the scan succeed. -/
theorem rmFind_isSome_of_suffix (pre suf : List Char)
    (h : (rmMatchAt suf).isSome = true) :
    (rmFind (pre ++ suf)).isSome = true := by
  induction pre with
  | nil => exact rmFind_isSome_of_matchAt suf h
  | cons c t ih =>
    rw [List.cons_append,
      show rmFind (c :: (t ++ suf)) =
        (match rmMatchAt (c :: (t ++ suf)) with
         | some g => some g
         | none => rmFind (t ++ suf)) from rfl]
    cases hm : rmMatchAt (c :: (t ++ suf)) with
    | some g => rfl
    | none => exact ih

/-- When the scan fails there is no regex decomposition of the input. -/
theorem noDecomp_of_rmFind_none (cs : List Char) (h : rmFind cs = none) :
    ¬ ∃ pre grp post, cs = pre ++ rmOpenLit ++ grp ++ rmCloseLit ++ post ∧
      grp ≠ [] ∧ ∀ c ∈ grp, isLineTerminator c = false := by
  rintro ⟨pre, grp, post, heq, hne, hlt⟩
  have hsome : (rmFind cs).isSome = true := by
    rw [heq]
    have := rmFind_isSome_of_suffix pre (rmOpenLit ++ (grp ++ (rmCloseLit ++ post)))
      (rmMatchAt_isSome grp post hne hlt)
    simpa [List.append_assoc] using this
  rw [h] at hsome
  cases hsome

/-- C10 (amended): for every non-empty field name free of double quotes and
line terminators, `parseResourceMapperFieldName` inverts the
`value["… "]` encoding; and on every string admitting no
`value["…"]` decomposition (with a non-empty, line-terminator-free group,
as `.` does not match line terminators) it returns its input unchanged. -/
theorem parseResourceMapperFieldName_spec :
    (∀ name : String, name.toList ≠ [] →
      (∀ c ∈ name.toList, c ≠ '"') →
      (∀ c ∈ name.toList, isLineTerminator c = false) →
      parseResourceMapperFieldName ("value[\"" ++ name ++ "\"]") = name) ∧
    (∀ s : String,
      (¬ ∃ pre grp post,
        s.toList = pre ++ rmOpenLit ++ grp ++ rmCloseLit ++ post ∧
        grp ≠ [] ∧ ∀ c ∈ grp, isLineTerminator c = false) →
      parseResourceMapperFieldName s = s) := by
  constructor
  · intro name hne hq hlt
    unfold parseResourceMapperFieldName
    have htl : ("value[\"" ++ name ++ "\"]").toList =
        rmOpenLit ++ (name.toList ++ rmCloseLit) := by
      show ("value[\"" ++ name ++ "\"]").data =
        rmOpenLit ++ (name.data ++ rmCloseLit)
      rw [String.data_append, String.data_append]
      rfl
    rw [htl, rmFind_of_matchAt _ _ (rmMatchAt_exact name.toList hne hlt)]
    rfl
  · intro s hno
    unfold parseResourceMapperFieldName
    cases hf : rmFind s.toList with
    | some g =>
      exfalso
      obtain ⟨pre, suf, hps, hm⟩ := rmFind_sound _ _ hf
      obtain ⟨post, hsuf, hgne, hglt⟩ := rmMatchAt_sound _ _ hm
      exact hno ⟨pre, g, post, by rw [hps, hsuf]; simp [List.append_assoc], hgne, hglt⟩
    | none => rfl

/-- C10 witness: the amended round-trip and identity cases at concrete
inputs. -/
theorem parseResourceMapperFieldName_spec_witness :
    parseResourceMapperFieldName "value[\"myField\"]" = "myField" ∧
    parseResourceMapperFieldName "plain" = "plain" :=
  ⟨parseResourceMapperFieldName_spec.1 "myField" (by decide) (by decide) (by decide),
   parseResourceMapperFieldName_spec.2 "plain"
     (noDecomp_of_rmFind_none "plain".toList (by decide))⟩

/-- C10 (counterexample): `"a\nb"` is a non-empty field name without double
quotes, yet the encoded `value["a\nb"]` does not parse back to it — the
regex dot does not cross the newline, so the whole input is returned. -/
theorem parseResourceMapperFieldName_newline_counterexample :
    ("a\nb" : String) ≠ "" ∧
    (∀ c ∈ ("a\nb" : String).toList, c ≠ '"') ∧
    parseResourceMapperFieldName ("value[\"" ++ "a\nb" ++ "\"]") =
      "value[\"a\nb\"]" ∧
    parseResourceMapperFieldName ("value[\"" ++ "a\nb" ++ "\"]") ≠ "a\nb" := by
  refine ⟨by decide, by decide, by decide, by decide⟩

